import Mathlib

/-!
Shallow embedding of the `LRUCache` class from `src/lru.py`.

The Python class keeps a `capacity` (an arbitrary int, set in `__init__`)
and a `cache : OrderedDict`.  An `OrderedDict` with unique keys is modelled
as an association list `List (Key × Value)` in insertion order: the head of
the list is the oldest (least-recently-used) entry and the last element is
the newest (most-recently-used) one.  `move_to_end(key)` removes the pair
for `key` and appends it at the end; `self.cache[key] = value` updates the
value in place when the key is present and appends otherwise;
`popitem(last=False)` removes the head; `len` is list length;
`list(self.cache.items())[::-1]` is `List.reverse`.

The surrounding UI stores integer keys and integer values
(`st.number_input` with format `%d`), so both `Key` and `Value` are `Int`.
-/

abbrev Key := Int

abbrev Value := Int

/-- Membership test `key in self.cache` on the ordered association list. -/
def hasKey : List (Key × Value) → Key → Bool
  | [], _ => false
  | p :: rest, k => p.1 = k || hasKey rest k

/-- Lookup `self.cache[key]` (the value of the first pair with this key). -/
def lookupKey : List (Key × Value) → Key → Option Value
  | [], _ => none
  | p :: rest, k => if p.1 = k then some p.2 else lookupKey rest k

/-- Removal of the (unique) pair carrying `k`; used to model the removal
half of `OrderedDict.move_to_end`. -/
def removeKey : List (Key × Value) → Key → List (Key × Value)
  | [], _ => []
  | p :: rest, k => if p.1 = k then rest else p :: removeKey rest k

/-- `OrderedDict.move_to_end(key)`: the pair for `key` is detached and
re-attached at the newest end.  Python raises `KeyError` on an absent key;
the class only calls this under a membership guard, and on an absent key
the model leaves the list unchanged. -/
def moveToEnd (l : List (Key × Value)) (k : Key) : List (Key × Value) :=
  match lookupKey l k with
  | some v => removeKey l k ++ [(k, v)]
  | none => l

/-- Dictionary assignment `self.cache[key] = value`: overwrite in place if
the key is present, append at the newest end otherwise. -/
def setKey : List (Key × Value) → Key → Value → List (Key × Value)
  | [], k, v => [(k, v)]
  | p :: rest, k, v => if p.1 = k then (k, v) :: rest else p :: setKey rest k v

/-- The `LRUCache` object: `capacity` as stored by `__init__` (the Python
constructor accepts any int) and the ordered dictionary `cache`. -/
structure LRUCache where
  capacity : Int
  cache : List (Key × Value)
deriving DecidableEq

/-- `LRUCache.__init__(self, capacity)`: stores the capacity unvalidated
and starts from an empty ordered dictionary. -/
def LRUCache.make (capacity : Int) : LRUCache :=
  { capacity := capacity, cache := [] }

/-- `LRUCache.get`: on a miss return `-1` with the state untouched; on a
hit move the key to the newest end and return its value (the dictionary
read happens after the move, as in the source; the `getD` default is never
reached because the key is present). -/
def LRUCache.get (c : LRUCache) (k : Key) : Int × LRUCache :=
  if hasKey c.cache k then
    let l := moveToEnd c.cache k
    ((lookupKey l k).getD (-1), { c with cache := l })
  else
    (-1, c)

/-- `LRUCache.put`: move an existing key to the newest end, assign the
value, then pop the oldest entry when the length exceeds the capacity. -/
def LRUCache.put (c : LRUCache) (k : Key) (v : Value) : LRUCache :=
  let l1 := if hasKey c.cache k then moveToEnd c.cache k else c.cache
  let l2 := setKey l1 k v
  if (l2.length : Int) > c.capacity then { c with cache := l2.tail }
  else { c with cache := l2 }

/-- `LRUCache.clear`: `self.cache.clear()` empties the dictionary and
leaves the capacity alone. -/
def LRUCache.clear (c : LRUCache) : LRUCache :=
  { c with cache := [] }

/-- `LRUCache.display`: `list(self.cache.items())[::-1]`, the entries from
most-recently-used to least-recently-used. -/
def LRUCache.display (c : LRUCache) : List (Key × Value) :=
  c.cache.reverse

/-- The `display` method as a state transformer: it returns the reversed
item list and the object state it leaves behind, which is the state it was
called on (the method body only reads `self.cache`). -/
def LRUCache.displayOp (c : LRUCache) : List (Key × Value) × LRUCache :=
  (c.cache.reverse, c)

/-- The keys of the ordered dictionary, oldest first (`order` of the spec
read tail-to-head). -/
def keysOf (l : List (Key × Value)) : List Key :=
  l.map Prod.fst

/-- One user-visible mutating operation on an initialized cache. -/
inductive Op where
  | get (k : Key)
  | put (k : Key) (v : Value)
  | clear
deriving DecidableEq

/-- Application of one operation to a cache, discarding the returned value
of `get`. -/
def applyOp (c : LRUCache) : Op → LRUCache
  | .get k => (c.get k).2
  | .put k v => c.put k v
  | .clear => c.clear

/-- A finite call sequence applied left to right. -/
def runOps (c : LRUCache) (ops : List Op) : LRUCache :=
  ops.foldl applyOp c

/-- The state invariant of the spec data model: each live key occurs
exactly once in the insertion order, and the live count stays within the
capacity. -/
def CacheInv (c : LRUCache) : Prop :=
  (keysOf c.cache).Nodup ∧ (c.cache.length : Int) ≤ c.capacity

/-- Built from the specification text, not from the source: a constructor
that rejects capacities below one with `InvalidCapacity` (modelled as
`none`), as section 4.1 of the spec demands.  It is compared against the
source constructor `LRUCache.make`. -/
def makeChecked (capacity : Int) : Option LRUCache :=
  if capacity < 1 then none else some (LRUCache.make capacity)

/-- Assignment into the last-touch bookkeeping map (same shape as
`setKey`, with step indices as values). -/
def setStamp : List (Key × Nat) → Key → Nat → List (Key × Nat)
  | [], k, n => [(k, n)]
  | p :: rest, k, n => if p.1 = k then (k, n) :: rest else p :: setStamp rest k n

/-- The recorded last-touch step index of a key (0 when never touched). -/
def stampOf : List (Key × Nat) → Key → Nat
  | [], _ => 0
  | p :: rest, k => if p.1 = k then p.2 else stampOf rest k

/-- An execution trace: the cache under test together with independent
bookkeeping of when each key was last touched (read with a hit, or
written) and the current step index.  The bookkeeping never feeds back
into the cache; it only states what recency means. -/
structure Trace where
  cache : LRUCache
  stamps : List (Key × Nat)
  now : Nat
deriving DecidableEq

/-- One step of the instrumented run: the cache takes the operation, and
the key involved gets the current step recorded as its last touch — for
`get` only on a hit, since a miss touches nothing. -/
def stepT (t : Trace) : Op → Trace
  | .get k =>
    { cache := (t.cache.get k).2,
      stamps := if hasKey t.cache.cache k then setStamp t.stamps k t.now
                else t.stamps,
      now := t.now + 1 }
  | .put k v =>
    { cache := t.cache.put k v,
      stamps := setStamp t.stamps k t.now,
      now := t.now + 1 }
  | .clear =>
    { cache := t.cache.clear, stamps := t.stamps, now := t.now + 1 }

/-- The instrumented run over a call sequence. -/
def runT (t : Trace) (ops : List Op) : Trace :=
  ops.foldl stepT t

/-- The instrumented run started on a fresh cache. -/
def traceStart (cap : Int) : Trace :=
  { cache := LRUCache.make cap, stamps := [], now := 0 }

/-- Trace invariant: the insertion-ordered dictionary is strictly sorted
by last-touch step (oldest touch at the head), and every live entry was
touched before the current step. -/
def goodT (t : Trace) : Prop :=
  t.cache.cache.Pairwise
    (fun p q => stampOf t.stamps p.1 < stampOf t.stamps q.1) ∧
  ∀ p ∈ t.cache.cache, stampOf t.stamps p.1 < t.now

/-! Helper lemmas about the association-list operations. -/

theorem hasKey_eq_false_iff (l : List (Key × Value)) (k : Key) :
    hasKey l k = false ↔ ∀ p ∈ l, p.1 ≠ k := by
  induction l with
  | nil => simp [hasKey]
  | cons p rest ih => simp [hasKey, ih]

theorem hasKey_iff_mem_keys (l : List (Key × Value)) (k : Key) :
    hasKey l k = true ↔ k ∈ keysOf l := by
  induction l with
  | nil => simp [hasKey, keysOf]
  | cons p rest ih =>
    simp [hasKey, keysOf] at ih ⊢
    constructor
    · rintro (h | h)
      · exact Or.inl h.symm
      · exact Or.inr (ih.mp h)
    · rintro (h | h)
      · exact Or.inl h.symm
      · exact Or.inr (ih.mpr h)

theorem lookupKey_some_of_hasKey (l : List (Key × Value)) (k : Key)
    (h : hasKey l k = true) : ∃ v, lookupKey l k = some v := by
  induction l with
  | nil => simp [hasKey] at h
  | cons p rest ih =>
    simp [hasKey] at h
    by_cases hp : p.1 = k
    · exact ⟨p.2, by simp [lookupKey, hp]⟩
    · rcases h with h | h
      · exact absurd h hp
      · rcases ih h with ⟨v, hv⟩
        exact ⟨v, by simp [lookupKey, hp, hv]⟩

theorem setKey_of_not_hasKey (l : List (Key × Value)) (k : Key) (v : Value)
    (h : hasKey l k = false) : setKey l k v = l ++ [(k, v)] := by
  induction l with
  | nil => simp [setKey]
  | cons p rest ih =>
    simp [hasKey] at h
    simp [setKey, h.1, ih h.2]

theorem keysOf_setKey_of_hasKey (l : List (Key × Value)) (k : Key) (v : Value)
    (h : hasKey l k = true) : keysOf (setKey l k v) = keysOf l := by
  induction l with
  | nil => simp [hasKey] at h
  | cons p rest ih =>
    by_cases hp : p.1 = k
    · simp [setKey, hp, keysOf]
    · simp [hasKey, hp] at h
      simp [setKey, hp, keysOf] at ih ⊢
      exact ih h

theorem length_setKey_of_hasKey (l : List (Key × Value)) (k : Key) (v : Value)
    (h : hasKey l k = true) : (setKey l k v).length = l.length := by
  have h1 := keysOf_setKey_of_hasKey l k v h
  have h2 : (keysOf (setKey l k v)).length = (keysOf l).length := by rw [h1]
  simpa [keysOf] using h2

theorem removeKey_sublist (l : List (Key × Value)) (k : Key) :
    (removeKey l k).Sublist l := by
  induction l with
  | nil => simp [removeKey]
  | cons p rest ih =>
    by_cases hp : p.1 = k
    · simp [removeKey, hp]
    · simpa [removeKey, hp] using ih.cons₂ p

theorem mem_of_mem_removeKey (l : List (Key × Value)) (k : Key)
    (p : Key × Value) (h : p ∈ removeKey l k) : p ∈ l :=
  (removeKey_sublist l k).mem h

theorem length_removeKey_of_hasKey (l : List (Key × Value)) (k : Key)
    (h : hasKey l k = true) : (removeKey l k).length + 1 = l.length := by
  induction l with
  | nil => simp [hasKey] at h
  | cons p rest ih =>
    by_cases hp : p.1 = k
    · simp [removeKey, hp]
    · simp [hasKey, hp] at h
      simp [removeKey, hp, ih h]

theorem keysOf_removeKey_sublist (l : List (Key × Value)) (k : Key) :
    (keysOf (removeKey l k)).Sublist (keysOf l) :=
  (removeKey_sublist l k).map Prod.fst

theorem not_hasKey_removeKey (l : List (Key × Value)) (k : Key)
    (hnd : (keysOf l).Nodup) : hasKey (removeKey l k) k = false := by
  induction l with
  | nil => simp [removeKey, hasKey]
  | cons p rest ih =>
    rw [keysOf, List.map_cons, List.nodup_cons] at hnd
    by_cases hp : p.1 = k
    · rw [removeKey, if_pos hp]
      rw [hasKey_eq_false_iff]
      intro q hq hqk
      exact hnd.1 (List.mem_map.mpr ⟨q, hq, by rw [hqk, hp]⟩)
    · rw [removeKey, if_neg hp]
      simp [hasKey, hp]
      exact ih hnd.2

theorem hasKey_removeKey_ne (l : List (Key × Value)) (k k' : Key)
    (hne : k' ≠ k) : hasKey (removeKey l k) k' = hasKey l k' := by
  induction l with
  | nil => simp [removeKey]
  | cons p rest ih =>
    by_cases hp : p.1 = k
    · have hkk : ¬ k = k' := fun h => hne h.symm
      simp [removeKey, hasKey, hp, hkk]
    · simp [removeKey, hasKey, hp, ih]

theorem moveToEnd_eq (l : List (Key × Value)) (k : Key)
    (h : hasKey l k = true) :
    ∃ v, lookupKey l k = some v ∧ moveToEnd l k = removeKey l k ++ [(k, v)] := by
  rcases lookupKey_some_of_hasKey l k h with ⟨v, hv⟩
  exact ⟨v, hv, by rw [moveToEnd, hv]⟩

theorem keysOf_append (a b : List (Key × Value)) :
    keysOf (a ++ b) = keysOf a ++ keysOf b := by
  simp [keysOf]

theorem nodup_keys_remove_append (l : List (Key × Value)) (k : Key) (v : Value)
    (hnd : (keysOf l).Nodup) :
    (keysOf (removeKey l k ++ [(k, v)])).Nodup := by
  rw [keysOf_append]
  have hrem : (keysOf (removeKey l k)).Nodup :=
    hnd.sublist (keysOf_removeKey_sublist l k)
  have habs : k ∉ keysOf (removeKey l k) := by
    have := not_hasKey_removeKey l k hnd
    intro hmem
    rw [← hasKey_iff_mem_keys] at hmem
    rw [this] at hmem
    exact Bool.false_ne_true hmem
  refine List.Nodup.append hrem (by simp [keysOf]) ?_
  intro a ha hb
  simp [keysOf] at hb
  exact habs (hb ▸ ha)

theorem lookupKey_append_right (a b : List (Key × Value)) (k : Key)
    (h : hasKey a k = false) :
    lookupKey (a ++ b) k = lookupKey b k := by
  induction a with
  | nil => simp
  | cons p rest ih =>
    simp [hasKey] at h
    simp [lookupKey, h.1, ih h.2]

theorem setKey_append_right (a b : List (Key × Value)) (k : Key) (v : Value)
    (h : hasKey a k = false) :
    setKey (a ++ b) k v = a ++ setKey b k v := by
  induction a with
  | nil => simp
  | cons p rest ih =>
    simp [hasKey] at h
    simp [setKey, h.1, ih h.2]

/-! Characterizations of `put` and `get` on well-formed states. -/

theorem put_absent_eq (c : LRUCache) (k : Key) (v : Value)
    (habs : hasKey c.cache k = false)
    (hgt : ((c.cache.length : Int) + 1) > c.capacity) :
    (c.put k v).cache = (c.cache ++ [(k, v)]).tail := by
  have hset : setKey c.cache k v = c.cache ++ [(k, v)] :=
    setKey_of_not_hasKey _ _ _ habs
  have hlen : (((c.cache ++ [(k, v)]).length : Int)) > c.capacity := by
    simp only [List.length_append, List.length_cons, List.length_nil]
    push_cast
    omega
  simp only [LRUCache.put, habs, Bool.false_eq_true, if_false, hset, if_pos hlen]

theorem put_absent_eq_no_evict (c : LRUCache) (k : Key) (v : Value)
    (habs : hasKey c.cache k = false)
    (hle : ((c.cache.length : Int) + 1) ≤ c.capacity) :
    (c.put k v).cache = c.cache ++ [(k, v)] := by
  have hset : setKey c.cache k v = c.cache ++ [(k, v)] :=
    setKey_of_not_hasKey _ _ _ habs
  have hlen : ¬ (((c.cache ++ [(k, v)]).length : Int)) > c.capacity := by
    simp only [List.length_append, List.length_cons, List.length_nil]
    push_cast
    omega
  simp only [LRUCache.put, habs, Bool.false_eq_true, if_false, hset, if_neg hlen]

theorem put_present_eq (c : LRUCache) (k : Key) (v : Value)
    (hnd : (keysOf c.cache).Nodup) (hk : hasKey c.cache k = true)
    (hlen : (c.cache.length : Int) ≤ c.capacity) :
    (c.put k v).cache = removeKey c.cache k ++ [(k, v)] := by
  obtain ⟨v0, hv0, hmv⟩ := moveToEnd_eq c.cache k hk
  have hrk : hasKey (removeKey c.cache k) k = false := not_hasKey_removeKey _ _ hnd
  have hset : setKey (moveToEnd c.cache k) k v = removeKey c.cache k ++ [(k, v)] := by
    rw [hmv, setKey_append_right _ _ _ _ hrk]
    simp [setKey]
  have hlen2 : ¬ (((removeKey c.cache k ++ [(k, v)]).length : Int) > c.capacity) := by
    simp only [List.length_append, List.length_cons, List.length_nil]
    have := length_removeKey_of_hasKey c.cache k hk
    push_cast
    omega
  simp only [LRUCache.put, hk, if_true, hset, if_neg hlen2]

theorem get_present_eq (c : LRUCache) (k : Key)
    (hnd : (keysOf c.cache).Nodup) (hk : hasKey c.cache k = true) :
    ∃ v, lookupKey c.cache k = some v ∧
      c.get k = (v, { c with cache := removeKey c.cache k ++ [(k, v)] }) := by
  obtain ⟨v, hv, hmv⟩ := moveToEnd_eq c.cache k hk
  refine ⟨v, hv, ?_⟩
  have hrk : hasKey (removeKey c.cache k) k = false := not_hasKey_removeKey _ _ hnd
  have hlook : lookupKey (moveToEnd c.cache k) k = some v := by
    rw [hmv, lookupKey_append_right _ _ _ hrk]
    simp [lookupKey]
  simp only [LRUCache.get, hk, if_true, hmv]
  rw [lookupKey_append_right _ _ _ hrk]
  simp [lookupKey]

theorem get_capacity (c : LRUCache) (k : Key) :
    ((c.get k).2).capacity = c.capacity := by
  by_cases h : hasKey c.cache k <;> simp [LRUCache.get, h]

theorem put_capacity (c : LRUCache) (k : Key) (v : Value) :
    (c.put k v).capacity = c.capacity := by
  rw [LRUCache.put]
  split <;> split <;> rfl

theorem applyOp_capacity (c : LRUCache) (op : Op) :
    (applyOp c op).capacity = c.capacity := by
  cases op with
  | get k => exact get_capacity c k
  | put k v => exact put_capacity c k v
  | clear => rfl

theorem runOps_cons (c : LRUCache) (op : Op) (ops : List Op) :
    runOps c (op :: ops) = runOps (applyOp c op) ops := rfl

theorem runOps_capacity (c : LRUCache) (ops : List Op) :
    (runOps c ops).capacity = c.capacity := by
  induction ops generalizing c with
  | nil => rfl
  | cons op rest ih => rw [runOps_cons, ih, applyOp_capacity]

/-- On the empty capacity-zero cache every operation is a self-loop: a miss
leaves it alone, a fresh insertion is popped right back out, and clearing
an empty dictionary is the identity. -/
theorem applyOp_make_zero (op : Op) : applyOp (LRUCache.make 0) op = LRUCache.make 0 := by
  cases op with
  | get k => simp [applyOp, LRUCache.get, LRUCache.make, hasKey]
  | put k v => simp [applyOp, LRUCache.put, LRUCache.make, hasKey, setKey]
  | clear => rfl

theorem runOps_make_zero (ops : List Op) :
    runOps (LRUCache.make 0) ops = LRUCache.make 0 := by
  induction ops with
  | nil => rfl
  | cons op rest ih => rw [runOps_cons, applyOp_make_zero, ih]

theorem get_miss_eq (c : LRUCache) (k : Key)
    (habs : hasKey c.cache k = false) : c.get k = (-1, c) := by
  simp [LRUCache.get, habs]

theorem nodup_keys_append_absent (l : List (Key × Value)) (k : Key) (v : Value)
    (hnd : (keysOf l).Nodup) (habs : hasKey l k = false) :
    (keysOf (l ++ [(k, v)])).Nodup := by
  rw [keysOf_append]
  refine List.Nodup.append hnd (by simp [keysOf]) ?_
  intro a ha hb
  simp [keysOf] at hb
  rw [hb] at ha
  have hmem := (hasKey_iff_mem_keys l k).mpr ha
  rw [habs] at hmem
  exact Bool.false_ne_true hmem

theorem keysOf_tail_sublist (l : List (Key × Value)) :
    (keysOf l.tail).Sublist (keysOf l) :=
  (List.tail_sublist l).map Prod.fst

theorem cacheInv_put (c : LRUCache) (k : Key) (v : Value) (h : CacheInv c) :
    CacheInv (c.put k v) := by
  obtain ⟨hnd, hlen⟩ := h
  have hc := put_capacity c k v
  by_cases hk : hasKey c.cache k
  · have heq := put_present_eq c k v hnd hk hlen
    have hrl := length_removeKey_of_hasKey c.cache k hk
    refine ⟨?_, ?_⟩
    · rw [heq]
      exact nodup_keys_remove_append _ _ _ hnd
    · rw [hc, heq]
      simp only [List.length_append, List.length_cons, List.length_nil]
      push_cast
      omega
  · have habs : hasKey c.cache k = false := by simpa using hk
    by_cases hover : ((c.cache.length : Int) + 1) > c.capacity
    · have heq := put_absent_eq c k v habs hover
      refine ⟨?_, ?_⟩
      · rw [heq]
        exact (nodup_keys_append_absent _ _ v hnd habs).sublist
          (keysOf_tail_sublist _)
      · rw [hc, heq]
        simp only [List.length_tail, List.length_append, List.length_cons,
          List.length_nil]
        push_cast
        omega
    · have heq := put_absent_eq_no_evict c k v habs (by omega)
      refine ⟨?_, ?_⟩
      · rw [heq]
        exact nodup_keys_append_absent _ _ v hnd habs
      · rw [hc, heq]
        simp only [List.length_append, List.length_cons, List.length_nil]
        push_cast
        omega

theorem cacheInv_get (c : LRUCache) (k : Key) (h : CacheInv c) : CacheInv ((c.get k).2) := by
  obtain ⟨hnd, hlen⟩ := h
  by_cases hk : hasKey c.cache k
  · obtain ⟨v, hv, heq⟩ := get_present_eq c k hnd hk
    have hrl := length_removeKey_of_hasKey c.cache k hk
    rw [heq]
    refine ⟨nodup_keys_remove_append _ _ _ hnd, ?_⟩
    simp only [List.length_append, List.length_cons, List.length_nil]
    push_cast
    omega
  · have habs : hasKey c.cache k = false := by simpa using hk
    rw [get_miss_eq c k habs]
    exact ⟨hnd, hlen⟩

theorem cacheInv_applyOp (c : LRUCache) (op : Op) (h : CacheInv c) :
    CacheInv (applyOp c op) := by
  cases op with
  | get k => exact cacheInv_get c k h
  | put k v => exact cacheInv_put c k v h
  | clear =>
    refine ⟨by simp [applyOp, LRUCache.clear, keysOf], ?_⟩
    simp only [applyOp, LRUCache.clear, List.length_nil]
    have := h.2
    push_cast
    omega

theorem cacheInv_runOps (c : LRUCache) (ops : List Op) (h : CacheInv c) :
    CacheInv (runOps c ops) := by
  induction ops generalizing c with
  | nil => exact h
  | cons op rest ih => exact runOps_cons c op rest ▸ ih _ (cacheInv_applyOp c op h)

/-! Claim theorems. -/

/-- C1: on a cache holding exactly `capacity ≥ 1` entries, `put` of an
absent key removes exactly the oldest (least-recently-used) entry — the
head of the insertion-ordered dictionary — keeps every other entry in
order, and appends the new pair as most-recently-used; moreover the spec
scenario 1-3 holds: after capacity 2, `put 1 a; put 2 b; get 1; put 3 c`
the evicted key is `2` and the snapshot is `[(3, c), (1, a)]` (string
values rendered as the integer codes 97, 98, 99). -/
theorem put_evicts_exactly_lru (c : LRUCache) (k : Key) (v : Value)
    (hcap : 1 ≤ c.capacity)
    (hfull : (c.cache.length : Int) = c.capacity)
    (habs : hasKey c.cache k = false) :
    (c.put k v).cache = c.cache.tail ++ [(k, v)] ∧
    ((((((LRUCache.make 2).put 1 97).put 2 98).get 1).2).put 3 99).display
      = [(3, 99), (1, 97)] ∧
    hasKey ((((((LRUCache.make 2).put 1 97).put 2 98).get 1).2).put 3 99).cache 2
      = false := by
  refine ⟨?_, by decide, by decide⟩
  have h1 : (c.put k v).cache = (c.cache ++ [(k, v)]).tail :=
    put_absent_eq c k v habs (by omega)
  have hne : c.cache ≠ [] := by
    intro h
    rw [h] at hfull
    simp at hfull
    omega
  obtain ⟨a, l, hal⟩ := List.exists_cons_of_ne_nil hne
  rw [h1, hal]
  simp

/-- C1 witness: the eviction theorem applied to the concrete full cache
`{capacity 2, entries (1, 97) then (2, 98)}` and the absent key 3. -/
theorem put_evicts_exactly_lru_witness :
    (({ capacity := 2, cache := [(1, 97), (2, 98)] } : LRUCache).put 3 99).cache
      = [(2, 98), (3, 99)] ∧
    ((((((LRUCache.make 2).put 1 97).put 2 98).get 1).2).put 3 99).display
      = [(3, 99), (1, 97)] := by
  have h := put_evicts_exactly_lru
    ({ capacity := 2, cache := [(1, 97), (2, 98)] } : LRUCache) 3 99
    (by decide) (by decide) (by decide)
  exact ⟨h.1, h.2.1⟩

/-- C2: starting from a fresh cache of capacity `cap ≥ 1`, after any
finite sequence of `get`, `put` and `clear` calls the live-entry count is
at most `cap` and each live key occurs exactly once in the recency order
(quantifying over all sequences covers the state after every prefix, hence
after each operation). -/
theorem capacity_bound_and_key_uniqueness (cap : Int) (hcap : 1 ≤ cap)
    (ops : List Op) :
    ((runOps (LRUCache.make cap) ops).cache.length : Int) ≤ cap ∧
    (keysOf (runOps (LRUCache.make cap) ops).cache).Nodup := by
  have h0 : CacheInv (LRUCache.make cap) := by
    refine ⟨by simp [LRUCache.make, keysOf], ?_⟩
    simp only [LRUCache.make, List.length_nil]
    push_cast
    omega
  obtain ⟨h1, h2⟩ := cacheInv_runOps _ ops h0
  rw [runOps_capacity (LRUCache.make cap) ops] at h2
  exact ⟨h2, h1⟩

/-- C2 witness: the bound holds after three inserts into a capacity-2
cache. -/
theorem capacity_bound_and_key_uniqueness_witness :
    ((runOps (LRUCache.make 2) [Op.put 1 10, Op.put 2 20, Op.put 3 30]).cache.length
      : Int) ≤ 2 ∧
    (keysOf (runOps (LRUCache.make 2)
      [Op.put 1 10, Op.put 2 20, Op.put 3 30]).cache).Nodup :=
  capacity_bound_and_key_uniqueness 2 (by decide)
    [Op.put 1 10, Op.put 2 20, Op.put 3 30]

/-- C3 counterexample: the miss sentinel `-1` is not distinguishable from
values a hit can return.  With `-1` stored under key 5, `get` on the
absent key 6 and `get` on the present key 5 both return `-1`. -/
theorem miss_sentinel_collides_with_hit :
    hasKey ((LRUCache.make 2).put 5 (-1)).cache 6 = false ∧
    (((LRUCache.make 2).put 5 (-1)).get 6).1 = -1 ∧
    hasKey ((LRUCache.make 2).put 5 (-1)).cache 5 = true ∧
    (((LRUCache.make 2).put 5 (-1)).get 5).1 = -1 := by decide

/-- C3 (amended): `get` on an absent key returns the sentinel `-1` and
returns the state completely unchanged (same order, same store); the
sentinel is however an ordinary storable value, not a distinguishable
one. -/
theorem get_miss_transparent (c : LRUCache) (k : Key)
    (habs : hasKey c.cache k = false) :
    c.get k = (-1, c) := by
  simp [LRUCache.get, habs]

/-- C3 witness: the miss theorem applied to a nonempty concrete cache and
the absent key 7. -/
theorem get_miss_transparent_witness :
    hasKey ((LRUCache.make 2).put 5 40).cache 7 = false ∧
    ((LRUCache.make 2).put 5 40).get 7 = (-1, (LRUCache.make 2).put 5 40) :=
  ⟨by decide, get_miss_transparent ((LRUCache.make 2).put 5 40) 7 (by decide)⟩

/-- C4: overwriting a present key stores the new value, keeps the live
count unchanged (no eviction), and moves the key to the most-recently-used
end while every other entry keeps its value and relative order; the spec
scenario 5 holds with the string values x, y rendered as 120, 121. -/
theorem put_overwrite (c : LRUCache) (k : Key) (v2 : Value)
    (hnd : (keysOf c.cache).Nodup)
    (hk : hasKey c.cache k = true)
    (hlen : (c.cache.length : Int) ≤ c.capacity) :
    (c.put k v2).cache = removeKey c.cache k ++ [(k, v2)] ∧
    (c.put k v2).cache.length = c.cache.length ∧
    lookupKey (c.put k v2).cache k = some v2 ∧
    (((LRUCache.make 1).put 5 120).put 5 121).display = [(5, 121)] := by
  have heq := put_present_eq c k v2 hnd hk hlen
  have hrk : hasKey (removeKey c.cache k) k = false := not_hasKey_removeKey _ _ hnd
  refine ⟨heq, ?_, ?_, by decide⟩
  · rw [heq, List.length_append]
    have := length_removeKey_of_hasKey c.cache k hk
    simp
    omega
  · rw [heq, lookupKey_append_right _ _ _ hrk]
    simp [lookupKey]

/-- C4 witness: the overwrite theorem applied to the concrete cache
`{capacity 1, entries (5, 120)}` and the new value 121. -/
theorem put_overwrite_witness :
    (({ capacity := 1, cache := [(5, 120)] } : LRUCache).put 5 121).cache
      = [(5, 121)] ∧
    (((LRUCache.make 1).put 5 120).put 5 121).display = [(5, 121)] := by
  have h := put_overwrite ({ capacity := 1, cache := [(5, 120)] } : LRUCache) 5 121
    (by decide) (by decide) (by decide)
  exact ⟨h.1, h.2.2.2⟩

/-- C5: `get` on a present key returns the stored value and moves the key
to the most-recently-used end; the value is unchanged, every other entry
keeps its value, and the other entries keep their relative order (the
result state is exactly the old list with the pair for `k` detached and
re-attached at the newest end); the capacity is untouched. -/
theorem get_read_promotes (c : LRUCache) (k : Key)
    (hnd : (keysOf c.cache).Nodup) (hk : hasKey c.cache k = true) :
    ∃ v, lookupKey c.cache k = some v ∧
      (c.get k).1 = v ∧
      (c.get k).2.cache = removeKey c.cache k ++ [(k, v)] ∧
      (c.get k).2.capacity = c.capacity := by
  obtain ⟨v, hv, heq⟩ := get_present_eq c k hnd hk
  exact ⟨v, hv, by rw [heq], by rw [heq], by rw [heq]⟩

/-- C5 witness: the read-promotes theorem applied to the concrete cache
`{capacity 2, entries (1, 97) then (2, 98)}` and the present key 1. -/
theorem get_read_promotes_witness :
    ∃ v, lookupKey [((1 : Int), (97 : Int)), (2, 98)] 1 = some v ∧
      (({ capacity := 2, cache := [(1, 97), (2, 98)] } : LRUCache).get 1).1 = v ∧
      (({ capacity := 2, cache := [(1, 97), (2, 98)] } : LRUCache).get 1).2.cache
        = removeKey [(1, 97), (2, 98)] 1 ++ [(1, v)] ∧
      (({ capacity := 2, cache := [(1, 97), (2, 98)] } : LRUCache).get 1).2.capacity
        = 2 :=
  get_read_promotes ({ capacity := 2, cache := [(1, 97), (2, 98)] } : LRUCache) 1
    (by decide) (by decide)

/-- C7 counterexample: the source constructor performs no validation — at
capacity 0 (which is below 1) it still creates an instance, an empty cache
carrying capacity 0, while the spec-mandated checked constructor
`makeChecked` rejects that capacity. -/
theorem make_accepts_capacity_zero :
    LRUCache.make 0 = { capacity := 0, cache := [] } ∧
    makeChecked 0 = none := by decide

/-- C7 (amended): `__init__` stores any integer capacity unvalidated and
always produces an empty cache; no `InvalidCapacity` failure exists in the
class (the ≥ 1 restriction lives only in the UI input widget).  For
capacities ≥ 1 the source constructor agrees with the spec-mandated
checked constructor. -/
theorem make_unvalidated (capacity : Int) :
    (LRUCache.make capacity).capacity = capacity ∧
    (LRUCache.make capacity).cache = [] ∧
    (1 ≤ capacity → makeChecked capacity = some (LRUCache.make capacity)) := by
  refine ⟨rfl, rfl, fun h => ?_⟩
  rw [makeChecked, if_neg (by omega)]

/-- C7 witness: the amended constructor theorem applied at capacity 2,
with the valid-range implication discharged. -/
theorem make_unvalidated_witness :
    (LRUCache.make 2).capacity = 2 ∧
    (LRUCache.make 2).cache = [] ∧
    makeChecked 2 = some (LRUCache.make 2) :=
  ⟨(make_unvalidated 2).1, (make_unvalidated 2).2.1,
    (make_unvalidated 2).2.2 (by decide)⟩

/-- C8: `clear` empties the dictionary, the following snapshot is empty,
and clearing twice is the same state as clearing once (the capacity is
carried through unchanged either way). -/
theorem clear_idempotent_and_empties (c : LRUCache) :
    (c.clear).cache = [] ∧
    (c.clear).display = [] ∧
    c.clear.clear = c.clear := ⟨rfl, rfl, rfl⟩

/-- C9: no operation writes the `capacity` field — `get`, `put`, `clear`
and the display call all return a state with the capacity they were called
on, and any operation sequence run from a fresh cache keeps the
construction-time capacity. -/
theorem capacity_immutable (c : LRUCache) (k : Key) (v : Value)
    (cap : Int) (ops : List Op) :
    ((c.get k).2).capacity = c.capacity ∧
    (c.put k v).capacity = c.capacity ∧
    (c.clear).capacity = c.capacity ∧
    ((c.displayOp).2).capacity = c.capacity ∧
    (runOps (LRUCache.make cap) ops).capacity = cap :=
  ⟨get_capacity c k, put_capacity c k v, rfl, rfl, runOps_capacity _ ops⟩

/-- C10: a cache constructed with capacity 0 is empty after every
operation sequence, and one further `put` still leaves it empty — the new
entry raises the length to 1, which exceeds capacity 0, so the entry just
inserted is popped again; the snapshot after every `put` is empty. -/
theorem capacity_zero_put_leaves_empty (ops : List Op) (k : Key) (v : Value) :
    (runOps (LRUCache.make 0) ops).cache = [] ∧
    ((runOps (LRUCache.make 0) ops).put k v).cache = [] ∧
    ((runOps (LRUCache.make 0) ops).put k v).display = [] := by
  rw [runOps_make_zero]
  have hput : (LRUCache.make 0).put k v = LRUCache.make 0 := applyOp_make_zero (Op.put k v)
  rw [hput]
  exact ⟨rfl, rfl, rfl⟩

/-! Recency-order instrumentation lemmas for the snapshot claim. -/

theorem stampOf_setStamp_self (s : List (Key × Nat)) (k : Key) (n : Nat) :
    stampOf (setStamp s k n) k = n := by
  induction s with
  | nil => simp [setStamp, stampOf]
  | cons p rest ih =>
    by_cases hp : p.1 = k
    · simp [setStamp, hp, stampOf]
    · simp [setStamp, hp, stampOf, ih]

theorem stampOf_setStamp_ne (s : List (Key × Nat)) (k k' : Key) (n : Nat)
    (h : k' ≠ k) : stampOf (setStamp s k n) k' = stampOf s k' := by
  have hk : ¬ k = k' := fun hh => h hh.symm
  induction s with
  | nil => simp [setStamp, stampOf, hk]
  | cons p rest ih =>
    by_cases hp : p.1 = k
    · have hpk : ¬ p.1 = k' := by rw [hp]; exact hk
      simp [setStamp, hp, stampOf, hk, hpk]
    · simp [setStamp, hp, stampOf, ih]

theorem nodup_keys_of_pairwise_stamps (l : List (Key × Value))
    (s : List (Key × Nat))
    (h : l.Pairwise (fun p q => stampOf s p.1 < stampOf s q.1)) :
    (keysOf l).Nodup := by
  rw [keysOf]
  refine (List.pairwise_map).mpr (h.imp ?_)
  intro p q hlt heq
  rw [heq] at hlt
  exact lt_irrefl _ hlt

theorem put_cache_sublist_present (c : LRUCache) (k : Key) (v : Value)
    (hnd : (keysOf c.cache).Nodup) (hk : hasKey c.cache k = true) :
    ((c.put k v).cache).Sublist (removeKey c.cache k ++ [(k, v)]) := by
  obtain ⟨v0, hv0, hmv⟩ := moveToEnd_eq c.cache k hk
  have hrk : hasKey (removeKey c.cache k) k = false := not_hasKey_removeKey _ _ hnd
  have hset : setKey (moveToEnd c.cache k) k v = removeKey c.cache k ++ [(k, v)] := by
    rw [hmv, setKey_append_right _ _ _ _ hrk]
    simp [setKey]
  simp only [LRUCache.put, hk, if_true, hset]
  split
  · exact List.tail_sublist _
  · exact List.Sublist.refl _

theorem put_cache_sublist_absent (c : LRUCache) (k : Key) (v : Value)
    (habs : hasKey c.cache k = false) :
    ((c.put k v).cache).Sublist (c.cache ++ [(k, v)]) := by
  have hset : setKey c.cache k v = c.cache ++ [(k, v)] :=
    setKey_of_not_hasKey _ _ _ habs
  simp only [LRUCache.put, habs, Bool.false_eq_true, if_false, hset]
  split
  · exact List.tail_sublist _
  · exact List.Sublist.refl _

theorem pairwise_stamps_remove_append (l : List (Key × Value))
    (s : List (Key × Nat)) (k : Key) (v : Value) (n : Nat)
    (hpw : l.Pairwise (fun p q => stampOf s p.1 < stampOf s q.1))
    (hbd : ∀ p ∈ l, stampOf s p.1 < n)
    (hnd : (keysOf l).Nodup) :
    (removeKey l k ++ [(k, v)]).Pairwise
      (fun p q => stampOf (setStamp s k n) p.1 < stampOf (setStamp s k n) q.1) := by
  have hrk : hasKey (removeKey l k) k = false := not_hasKey_removeKey _ _ hnd
  have hne : ∀ p ∈ removeKey l k, p.1 ≠ k := (hasKey_eq_false_iff _ _).mp hrk
  refine List.pairwise_append.mpr ⟨?_, List.pairwise_singleton _ _, ?_⟩
  · refine List.Pairwise.imp_of_mem ?_ (hpw.sublist (removeKey_sublist l k))
    intro p q hp hq hlt
    rw [stampOf_setStamp_ne s k p.1 n (hne p hp),
      stampOf_setStamp_ne s k q.1 n (hne q hq)]
    exact hlt
  · intro p hp q hq
    simp only [List.mem_singleton] at hq
    subst hq
    show stampOf (setStamp s k n) p.1 < stampOf (setStamp s k n) k
    rw [stampOf_setStamp_ne s k p.1 n (hne p hp), stampOf_setStamp_self]
    exact hbd p (mem_of_mem_removeKey l k p hp)

theorem bound_stamps_remove_append (l : List (Key × Value))
    (s : List (Key × Nat)) (k : Key) (v : Value) (n : Nat)
    (hbd : ∀ p ∈ l, stampOf s p.1 < n)
    (hnd : (keysOf l).Nodup) :
    ∀ p ∈ removeKey l k ++ [(k, v)], stampOf (setStamp s k n) p.1 < n + 1 := by
  have hrk : hasKey (removeKey l k) k = false := not_hasKey_removeKey _ _ hnd
  have hne : ∀ p ∈ removeKey l k, p.1 ≠ k := (hasKey_eq_false_iff _ _).mp hrk
  intro p hp
  rcases List.mem_append.mp hp with hp | hp
  · rw [stampOf_setStamp_ne s k p.1 n (hne p hp)]
    exact Nat.lt_succ_of_lt (hbd p (mem_of_mem_removeKey l k p hp))
  · simp only [List.mem_singleton] at hp
    subst hp
    show stampOf (setStamp s k n) k < n + 1
    rw [stampOf_setStamp_self]
    exact Nat.lt_succ_self n

theorem pairwise_stamps_append_absent (l : List (Key × Value))
    (s : List (Key × Nat)) (k : Key) (v : Value) (n : Nat)
    (hpw : l.Pairwise (fun p q => stampOf s p.1 < stampOf s q.1))
    (hbd : ∀ p ∈ l, stampOf s p.1 < n)
    (habs : hasKey l k = false) :
    (l ++ [(k, v)]).Pairwise
      (fun p q => stampOf (setStamp s k n) p.1 < stampOf (setStamp s k n) q.1) := by
  have hne : ∀ p ∈ l, p.1 ≠ k := (hasKey_eq_false_iff _ _).mp habs
  refine List.pairwise_append.mpr ⟨?_, List.pairwise_singleton _ _, ?_⟩
  · refine List.Pairwise.imp_of_mem ?_ hpw
    intro p q hp hq hlt
    rw [stampOf_setStamp_ne s k p.1 n (hne p hp),
      stampOf_setStamp_ne s k q.1 n (hne q hq)]
    exact hlt
  · intro p hp q hq
    simp only [List.mem_singleton] at hq
    subst hq
    show stampOf (setStamp s k n) p.1 < stampOf (setStamp s k n) k
    rw [stampOf_setStamp_ne s k p.1 n (hne p hp), stampOf_setStamp_self]
    exact hbd p hp

theorem bound_stamps_append_absent (l : List (Key × Value))
    (s : List (Key × Nat)) (k : Key) (v : Value) (n : Nat)
    (hbd : ∀ p ∈ l, stampOf s p.1 < n)
    (habs : hasKey l k = false) :
    ∀ p ∈ l ++ [(k, v)], stampOf (setStamp s k n) p.1 < n + 1 := by
  have hne : ∀ p ∈ l, p.1 ≠ k := (hasKey_eq_false_iff _ _).mp habs
  intro p hp
  rcases List.mem_append.mp hp with hp | hp
  · rw [stampOf_setStamp_ne s k p.1 n (hne p hp)]
    exact Nat.lt_succ_of_lt (hbd p hp)
  · simp only [List.mem_singleton] at hp
    subst hp
    show stampOf (setStamp s k n) k < n + 1
    rw [stampOf_setStamp_self]
    exact Nat.lt_succ_self n

theorem goodT_step (t : Trace) (op : Op) (h : goodT t) : goodT (stepT t op) := by
  obtain ⟨hpw, hbd⟩ := h
  cases op with
  | clear =>
    refine ⟨?_, ?_⟩
    · simp [stepT, LRUCache.clear]
    · simp [stepT, LRUCache.clear]
  | put k v =>
    by_cases hk : hasKey t.cache.cache k
    · have hnd := nodup_keys_of_pairwise_stamps _ _ hpw
      have hsub := put_cache_sublist_present t.cache k v hnd hk
      have hMpw := pairwise_stamps_remove_append t.cache.cache t.stamps k v t.now
        hpw hbd hnd
      have hMbd := bound_stamps_remove_append t.cache.cache t.stamps k v t.now
        hbd hnd
      exact ⟨hMpw.sublist hsub, fun p hp => hMbd p (hsub.mem hp)⟩
    · have habs : hasKey t.cache.cache k = false := by simpa using hk
      have hsub := put_cache_sublist_absent t.cache k v habs
      have hMpw := pairwise_stamps_append_absent t.cache.cache t.stamps k v t.now
        hpw hbd habs
      have hMbd := bound_stamps_append_absent t.cache.cache t.stamps k v t.now
        hbd habs
      exact ⟨hMpw.sublist hsub, fun p hp => hMbd p (hsub.mem hp)⟩
  | get k =>
    by_cases hk : hasKey t.cache.cache k
    · have hnd := nodup_keys_of_pairwise_stamps _ _ hpw
      obtain ⟨v, hv, heq⟩ := get_present_eq t.cache k hnd hk
      have hMpw := pairwise_stamps_remove_append t.cache.cache t.stamps k v t.now
        hpw hbd hnd
      have hMbd := bound_stamps_remove_append t.cache.cache t.stamps k v t.now
        hbd hnd
      refine ⟨?_, ?_⟩
      · show ((t.cache.get k).2).cache.Pairwise _
        rw [heq]
        simpa [stepT, hk] using hMpw
      · intro p hp
        show stampOf (if hasKey t.cache.cache k = true then setStamp t.stamps k t.now
          else t.stamps) p.1 < t.now + 1
        rw [if_pos hk]
        refine hMbd p ?_
        have : ((t.cache.get k).2).cache = removeKey t.cache.cache k ++ [(k, v)] := by
          rw [heq]
        rw [← this]
        exact hp
    · have habs : hasKey t.cache.cache k = false := by simpa using hk
      have heq := get_miss_eq t.cache k habs
      refine ⟨?_, ?_⟩
      · show ((t.cache.get k).2).cache.Pairwise _
        rw [heq]
        simpa [stepT, habs] using hpw
      · intro p hp
        show stampOf (if hasKey t.cache.cache k = true then setStamp t.stamps k t.now
          else t.stamps) p.1 < t.now + 1
        rw [if_neg (by simp [habs])]
        refine Nat.lt_succ_of_lt (hbd p ?_)
        have hcache : ((t.cache.get k).2).cache = t.cache.cache := by rw [heq]
        rw [← hcache]
        exact hp

theorem goodT_start (cap : Int) : goodT (traceStart cap) := by
  refine ⟨?_, ?_⟩
  · simp [traceStart, LRUCache.make]
  · simp [traceStart, LRUCache.make]

theorem goodT_runT (t : Trace) (ops : List Op) (h : goodT t) :
    goodT (runT t ops) := by
  induction ops generalizing t with
  | nil => exact h
  | cons op rest ih => exact ih _ (goodT_step t op h)

theorem runT_cache (t : Trace) (ops : List Op) :
    (runT t ops).cache = runOps t.cache ops := by
  induction ops generalizing t with
  | nil => rfl
  | cons op rest ih =>
    have h1 : runT t (op :: rest) = runT (stepT t op) rest := rfl
    have h2 : (stepT t op).cache = applyOp t.cache op := by cases op <;> rfl
    rw [h1, ih, h2]
    rfl

/-- C6: the display call is read-only and restartable — it hands back the
state it was called on and a repeated call yields the same sequence — and
after any operation sequence the snapshot lists the live entries in
strictly decreasing order of last touch: the most recently touched key
(by a `get` hit or a `put`) comes first, the least recently touched
last.  The instrumented run `runT` drives the very same cache as the
plain run (second conjunct) and only adds last-touch bookkeeping. -/
theorem snapshot_recency_order (cap : Int) (ops : List Op) :
    (∀ c : LRUCache, (LRUCache.displayOp c).2 = c ∧
      (LRUCache.displayOp (LRUCache.displayOp c).2).1 = (LRUCache.displayOp c).1) ∧
    (runT (traceStart cap) ops).cache = runOps (LRUCache.make cap) ops ∧
    ((runT (traceStart cap) ops).cache.display.Pairwise (fun p q =>
      stampOf (runT (traceStart cap) ops).stamps q.1
        < stampOf (runT (traceStart cap) ops).stamps p.1)) := by
  refine ⟨fun c => ⟨rfl, rfl⟩, runT_cache _ ops, ?_⟩
  have h := goodT_runT (traceStart cap) ops (goodT_start cap)
  rw [LRUCache.display, List.pairwise_reverse]
  exact h.1
